import Mathlib

/-!
Verification of the trajectory-discretization and probe-decomposition core
of `tike/scan.py`, shallowly embedded over the real numbers.

The embedding follows the source closely:

* `thetahv_to_xyz`, `euclidian_dist` — the coordinate embedding used for
  physical distance comparisons (`scan.py` lines 399-422);
* `dtStep` / `dtLoop` / `discrete_trajectory` — the adaptive sampling walk
  (`scan.py` lines 479-502), written as one loop iteration (`dtStep`) driven
  by a fuel-bounded runner (`dtLoop`); Python's unbounded `while` becomes
  fuel, and the `RuntimeError` raise becomes the `DTResult.err` outcome;
* `line_offsets` — probe decomposition into weighted sublines
  (`scan.py` lines 138-173);
* `procedure` — per-subline offset sampling with weight attachment
  (`scan.py` lines 175-209);
* `pymod`, `coverage_warns`, `coverage_approx_front` — the region
  validation/alignment front half of `coverage_approx`
  (`scan.py` lines 269-285); the external accumulation kernel is out of
  scope per the specification.
-/

/-- A point in the rotating-frame coordinate system `theta, h, v`. -/
structure THV where
  theta : ℝ
  h : ℝ
  v : ℝ

/-- Componentwise addition, as numpy array addition in `trajectory(t) + offset`. -/
def THV.add (a b : THV) : THV :=
  ⟨a.theta + b.theta, a.h + b.h, a.v + b.v⟩

/-- A point in fixed reconstruction space `x, y, z`. -/
structure XYZ where
  x : ℝ
  y : ℝ
  z : ℝ

/-- `thetahv_to_xyz` from `scan.py`: the row vector `[radius, h, v]` multiplied
on the right by the matrix `R` with `R[0,0] = cos θ`, `R[0,1] = -sin θ`,
`R[1,0] = sin θ`, `R[1,1] = cos θ`, `R[2,2] = 1`. -/
noncomputable def thetahv_to_xyz (p : THV) (radius : ℝ := 0.75) : XYZ :=
  ⟨radius * Real.cos p.theta + p.h * Real.sin p.theta,
   radius * (-Real.sin p.theta) + p.h * Real.cos p.theta,
   p.v⟩

/-- `euclidian_dist` from `scan.py`: `d = thetahv_to_xyz a - thetahv_to_xyz b`,
then `sqrt (d.dot d)`. -/
noncomputable def euclidian_dist (a b : THV) : ℝ :=
  Real.sqrt (((thetahv_to_xyz a).x - (thetahv_to_xyz b).x) ^ 2 +
    ((thetahv_to_xyz a).y - (thetahv_to_xyz b).y) ^ 2 +
    ((thetahv_to_xyz a).z - (thetahv_to_xyz b).z) ^ 2)

/-- The mutable state of the `discrete_trajectory` loop: accumulated outputs,
the deferred-candidate stack `nextxt` (head = most recently appended), the last
accepted point `x` at time `t`, and the pending candidate time `tnext`. -/
structure DTState where
  position : List THV
  time : List ℝ
  dwell : List ℝ
  nextxt : List (THV × ℝ)
  x : THV
  t : ℝ
  tnext : ℝ

/-- The three return lists of `discrete_trajectory`, in source order. -/
structure DTOutput where
  position : List THV
  dwell : List ℝ
  time : List ℝ

/-- Result of one loop iteration. -/
inductive DTStepRes where
  | cont (s : DTState)
  | done (out : DTOutput)
  | err

/-- The accept/reject body shared by the stack-empty and stack-pop cases:
`if euclidian_dist(xnext, x) <= dx` accept and advance, else push the
candidate and its midpoint refinement onto the stack. -/
noncomputable def dtAcceptReject (trajectory : ℝ → THV) (tmax dx dt : ℝ)
    (s : DTState) (xnext : THV) (tn : ℝ) (stack : List (THV × ℝ)) : DTStepRes :=
  if euclidian_dist xnext s.x ≤ dx then
    .cont ⟨s.position ++ [s.x], s.time ++ [s.t], s.dwell ++ [tn - s.t],
           stack, xnext, tn, min (tn + dt) tmax⟩
  else
    let tmid := (tn + s.t) / 2
    .cont ⟨s.position, s.time, s.dwell,
           (trajectory tmid, tmid) :: (xnext, tn) :: stack, s.x, s.t, tmid⟩

/-- One iteration of the `while t < tmax` loop of `discrete_trajectory`. -/
noncomputable def dtStep (trajectory : ℝ → THV) (tmax dx dt : ℝ) (max_iter : ℕ)
    (s : DTState) : DTStepRes :=
  if s.t < tmax then
    match s.nextxt with
    | [] => dtAcceptReject trajectory tmax dx dt s (trajectory s.tnext) s.tnext []
    | (xn, tn) :: rest =>
        if max_iter < rest.length + 1 then .err
        else dtAcceptReject trajectory tmax dx dt s xn tn rest
  else
    .done ⟨s.position, s.dwell, s.time⟩

/-- Overall outcome of a bounded run of the loop. -/
inductive DTResult where
  | ok (out : DTOutput)
  | err
  | fuelOut

/-- Fuel-bounded iteration of `dtStep`. -/
noncomputable def dtLoop (trajectory : ℝ → THV) (tmax dx dt : ℝ) (max_iter : ℕ) :
    ℕ → DTState → DTResult
  | 0, _ => .fuelOut
  | fuel + 1, s =>
    match dtStep trajectory tmax dx dt max_iter s with
    | .cont s' => dtLoop trajectory tmax dx dt max_iter fuel s'
    | .done out => .ok out
    | .err => .err

/-- `discrete_trajectory` from `scan.py`: initial state has empty lists,
`x = trajectory tmin`, `t = tmin`, `tnext = min (tmin + dt) tmax`; `max_iter`
defaults to 16. -/
noncomputable def discrete_trajectory (trajectory : ℝ → THV) (tmin tmax dx dt : ℝ)
    (fuel : ℕ) (max_iter : ℕ := 16) : DTResult :=
  dtLoop trajectory tmax dx dt max_iter fuel
    ⟨[], [], [], [], trajectory tmin, tmin, min (tmin + dt) tmax⟩

/-- `n` iterations of `dtStep` from a state, `none` if the loop leaves the
`cont` regime earlier; used to phrase reachability of loop states. -/
noncomputable def stepN (trajectory : ℝ → THV) (tmax dx dt : ℝ) (max_iter : ℕ) :
    ℕ → DTState → Option DTState
  | 0, s => some s
  | n + 1, s =>
    match dtStep trajectory tmax dx dt max_iter s with
    | .cont s' => stepN trajectory tmax dx dt max_iter n s'
    | _ => none

/-- `Probe.line_offsets` from `scan.py` (lines 138-173): derives the line
width, fails when the probe is smaller than `pixel_size / 16` in either
dimension, and otherwise returns the derived `line_width` together with the
grid of `([0, h, v], weight)` pairs `(THV.mk 0 h v, density_profile h v)`.
`np.linspace (0, w, n, endpoint := False)` is the list `i * (w / n)` for
`i < n`, and Python `int` on the positive ratios is `Int.toNat` of the
floor. -/
noncomputable def line_offsets (density_profile : ℝ → ℝ → ℝ)
    (width aspect pixel_size : ℝ) : Except String (ℝ × List (THV × ℝ)) :=
  let height := width * aspect
  let lw0 := pixel_size / 16
  if width < lw0 ∨ height < lw0 then
    .error "Why are you using such large pixels?"
  else
    let ncells : ℤ := ⌈width / lw0⌉
    let lw : ℝ := width / (ncells : ℝ)
    let nh : ℕ := (⌊width / lw⌋).toNat
    let nv : ℕ := (⌊height / lw⌋).toNat
    let gh : List ℝ :=
      (List.range nh).map (fun i : ℕ => (i : ℝ) * (width / (nh : ℝ)) + (lw - width) / 2)
    let gv : List ℝ :=
      (List.range nv).map (fun i : ℕ => (i : ℝ) * (height / (nv : ℝ)) + (lw - height) / 2)
    .ok (lw, (gv.map (fun v => gh.map (fun h => (THV.mk 0 h v, density_profile h v)))).flatten)

/-- One subline of `Probe.procedure`: run `discrete_trajectory` on the offset
path with `dx = line_width` and the default `max_iter`, then attach
`dwell * weight` to each sample position. -/
noncomputable def procedure_line (trajectory : ℝ → THV) (offset : THV) (weight : ℝ)
    (tmin tmax dx dt : ℝ) (fuel : ℕ) : Except String (List (THV × ℝ)) :=
  match discrete_trajectory (fun t => (trajectory t).add offset) tmin tmax dx dt fuel with
  | .ok out => .ok (List.zipWith (fun p d => (p, d * weight)) out.position out.dwell)
  | .err => .error "Failed to find next step"
  | .fuelOut => .error "out of fuel"

/-- The per-subline loop body of `Probe.procedure`, in subline order. -/
noncomputable def procedure_lines (trajectory : ℝ → THV) (tmin tmax dx dt : ℝ)
    (fuel : ℕ) : List (THV × ℝ) → Except String (List (List (THV × ℝ)))
  | [] => .ok []
  | (offset, weight) :: rest =>
    match procedure_line trajectory offset weight tmin tmax dx dt fuel with
    | .error e => .error e
    | .ok block =>
      match procedure_lines trajectory tmin tmax dx dt fuel rest with
      | .error e => .error e
      | .ok blocks => .ok (block :: blocks)

/-- `Probe.procedure` from `scan.py` (lines 175-209): decompose the probe
into sublines, then sample each offset path with `dx` equal to the derived
`line_width`, producing one weighted ray block per subline. -/
noncomputable def procedure (density_profile : ℝ → ℝ → ℝ) (width aspect : ℝ)
    (trajectory : ℝ → THV) (pixel_size tmin tmax dt : ℝ) (fuel : ℕ) :
    Except String (List (List (THV × ℝ))) :=
  match line_offsets density_profile width aspect pixel_size with
  | .error e => .error e
  | .ok (lw, lines) => procedure_lines trajectory tmin tmax lw dt fuel lines

/-- Python float modulo `b % ps` for the alignment test of `coverage_approx`:
`b - ps * ⌊b / ps⌋`. -/
noncomputable def pymod (b ps : ℝ) : ℝ :=
  b - ps * (⌊b / ps⌋ : ℝ)

/-- The warning condition of `coverage_approx` (`scan.py` line 273):
`np.any (box % pixel_size ≠ 0)` over all region bounds. -/
def coverage_warns (region : List (ℝ × ℝ)) (pixel_size : ℝ) : Prop :=
  ∃ p ∈ region, pymod p.1 pixel_size ≠ 0 ∨ pymod p.2 pixel_size ≠ 0

/-- The region validation and grid-shape computation of `coverage_approx`
(`scan.py` lines 269-279): assert `min ≤ max` per axis, then the shape per
axis is `⌈max / pixel_size⌉ - ⌊min / pixel_size⌋`. -/
noncomputable def coverage_approx_front (region : List (ℝ × ℝ)) (pixel_size : ℝ) :
    Except String (List ℤ) :=
  if ∀ p ∈ region, p.1 ≤ p.2 then
    .ok (region.map (fun p => ⌈p.2 / pixel_size⌉ - ⌊p.1 / pixel_size⌋))
  else
    .error "region minimum must be <= to region maximum."

/-- The rotation by `theta` about the `z` axis as the specification words it:
the standard rotation matrix `R_z theta` applied to a column vector.
Modelled from the spec for comparison with `thetahv_to_xyz`. -/
noncomputable def rotZ (theta : ℝ) (p : XYZ) : XYZ :=
  ⟨p.x * Real.cos theta - p.y * Real.sin theta,
   p.x * Real.sin theta + p.y * Real.cos theta,
   p.z⟩

/-- Successive differences of a list: `diffs [a, b, c] = [b - a, c - b]`.
Used to relate the `dwell` list to the `time` list. -/
def diffs (l : List ℝ) : List ℝ :=
  List.zipWith (fun a b => b - a) l l.tail

/-- The invariant maintained by every `cont` step of the sampling loop, for a
positive `dt`.  The running lists extended with the current point and time
form chains for the three guarantees (spatial step, strict time increase,
time step), `dwell` is the list of successive time differences, the deferred
stack is sorted by time with all entries inside `(t, t + dt]` and at most
`tmax`, and the pending candidate time obeys the same bounds whenever it
will actually be used (stack empty, loop still running). -/
structure DTInv (tmin tmax dx dt : ℝ) (s : DTState) : Prop where
  dwell_eq : s.dwell = diffs (s.time ++ [s.t])
  time_sorted : List.Chain' (· < ·) (s.time ++ [s.t])
  pos_chain : List.Chain' (fun a b => euclidian_dist a b ≤ dx) (s.position ++ [s.x])
  time_gap : List.Chain' (fun a b => b - a ≤ dt) (s.time ++ [s.t])
  head_eq : (s.time ++ [s.t]).head? = some tmin
  len_eq : s.position.length = s.time.length
  t_le : s.t ≤ tmax
  stack_sorted : List.Pairwise (fun p q : THV × ℝ => p.2 < q.2) s.nextxt
  stack_mem : ∀ p ∈ s.nextxt, s.t < p.2 ∧ p.2 ≤ s.t + dt ∧ p.2 ≤ tmax
  tnext_ok : s.nextxt = [] → s.t < tmax → s.t < s.tnext ∧ s.tnext ≤ s.t + dt ∧ s.tnext ≤ tmax

/-- State invariant showing the loop can never reach `t ≥ tmax` when
`dt ≤ 0`: every relevant time stays strictly below `tmax`. -/
def DTStuck (tmax : ℝ) (s : DTState) : Prop :=
  s.t < tmax ∧ s.tnext < tmax ∧ ∀ p ∈ s.nextxt, p.2 < tmax


/-- The `line_width` derived by `line_offsets` on its success path:
`width / np.ceil (width / (pixel_size / 16))`. -/
noncomputable def line_width_of (width pixel_size : ℝ) : ℝ :=
  width / ((⌈width / (pixel_size / 16)⌉ : ℤ) : ℝ)

/-- The per-axis subline count `int (width / line_width)` of `line_offsets`. -/
noncomputable def nh_of (width pixel_size : ℝ) : ℕ :=
  (⌊width / line_width_of width pixel_size⌋).toNat

/-- The vertical subline count `int (height / line_width)` of `line_offsets`,
with `height = width * aspect`. -/
noncomputable def nv_of (width aspect pixel_size : ℝ) : ℕ :=
  (⌊(width * aspect) / line_width_of width pixel_size⌋).toNat

/-- The horizontal center grid `gh` of `line_offsets`. -/
noncomputable def gh_of (width pixel_size : ℝ) : List ℝ :=
  (List.range (nh_of width pixel_size)).map
    (fun i : ℕ => (i : ℝ) * (width / (nh_of width pixel_size : ℝ)) +
      (line_width_of width pixel_size - width) / 2)

/-- The vertical center grid `gv` of `line_offsets`. -/
noncomputable def gv_of (width aspect pixel_size : ℝ) : List ℝ :=
  (List.range (nv_of width aspect pixel_size)).map
    (fun i : ℕ => (i : ℝ) * ((width * aspect) / (nv_of width aspect pixel_size : ℝ)) +
      (line_width_of width pixel_size - width * aspect) / 2)

/-- The flattened subline list returned by `line_offsets` on success. -/
noncomputable def lines_of (density_profile : ℝ → ℝ → ℝ)
    (width aspect pixel_size : ℝ) : List (THV × ℝ) :=
  ((gv_of width aspect pixel_size).map
    (fun v => (gh_of width pixel_size).map
      (fun h => (THV.mk 0 h v, density_profile h v)))).flatten

/-- A path with a jump discontinuity right after `t = 0`: the position jumps
from `(0, 0, 0)` at `t <= 0` to `(0, 2, 0)` for every `t > 0`, so with
`dx = 1` no candidate time after `tmin = 0` is ever acceptable and the
bisection stack grows until the `max_iter` bound trips. -/
noncomputable def jumpPath (t : ℝ) : THV :=
  if t ≤ 0 then ⟨0, 0, 0⟩ else ⟨0, 2, 0⟩

theorem euclidian_dist_self (a : THV) : euclidian_dist a a = 0 := by
  simp [euclidian_dist]

theorem euclidian_dist_comm (a b : THV) : euclidian_dist a b = euclidian_dist b a := by
  have key : ∀ p q : XYZ,
      (p.x - q.x) ^ 2 + (p.y - q.y) ^ 2 + (p.z - q.z) ^ 2 =
        (q.x - p.x) ^ 2 + (q.y - p.y) ^ 2 + (q.z - p.z) ^ 2 := by
    intro p q
    ring
  unfold euclidian_dist
  rw [key]

theorem diffs_nil : diffs [] = [] := rfl

theorem diffs_singleton (a : ℝ) : diffs [a] = [] := rfl

theorem diffs_cons_cons (a b : ℝ) (l : List ℝ) :
    diffs (a :: b :: l) = (b - a) :: diffs (b :: l) := rfl

theorem diffs_concat (l : List ℝ) (a b : ℝ) :
    diffs (l ++ [a, b]) = diffs (l ++ [a]) ++ [b - a] := by
  induction l with
  | nil => rfl
  | cons c l ih =>
    cases l with
    | nil => rfl
    | cons d l =>
      simpa [diffs_cons_cons] using ih

theorem diffs_sum (l : List ℝ) (a : ℝ) :
    (diffs (a :: l)).sum = (a :: l).getLast (by simp) - a := by
  induction l generalizing a with
  | nil => simp [diffs_singleton]
  | cons b l ih =>
    rw [diffs_cons_cons, List.sum_cons, ih b]
    have h : (a :: b :: l).getLast (by simp) = (b :: l).getLast (by simp) := by
      simp [List.getLast_cons]
    rw [h]
    ring

theorem chain'_snoc {α : Type _} {R : α → α → Prop} {l : List α} {a b : α}
    (h : List.Chain' R (l ++ [a])) (hab : R a b) :
    List.Chain' R (l ++ [a] ++ [b]) := by
  apply List.Chain'.append h (List.chain'_singleton b)
  intro x hx y hy
  rw [List.getLast?_concat] at hx
  simp only [List.head?_cons, Option.mem_def, Option.some.injEq] at hx hy
  rwa [hx, hy] at hab

theorem dtAcceptReject_inv {trajectory : ℝ → THV} {tmin tmax dx dt : ℝ}
    {s : DTState} {xn : THV} {tn : ℝ} {stack : List (THV × ℝ)} {s' : DTState}
    (hInv : DTInv tmin tmax dx dt s) (hdt : 0 < dt)
    (h1 : s.t < tn) (h2 : tn ≤ s.t + dt) (h3 : tn ≤ tmax)
    (hsorted : List.Pairwise (fun p q : THV × ℝ => p.2 < q.2) stack)
    (hmem : ∀ p ∈ stack, tn < p.2 ∧ p.2 ≤ s.t + dt ∧ p.2 ≤ tmax)
    (hres : dtAcceptReject trajectory tmax dx dt s xn tn stack = .cont s') :
    DTInv tmin tmax dx dt s' := by
  unfold dtAcceptReject at hres
  split_ifs at hres with hdist
  · cases hres
    constructor
    · show s.dwell ++ [tn - s.t] = diffs (s.time ++ [s.t] ++ [tn])
      rw [List.append_assoc, show [s.t] ++ [tn] = [s.t, tn] from rfl, diffs_concat,
        ← hInv.dwell_eq]
    · exact chain'_snoc hInv.time_sorted h1
    · exact chain'_snoc hInv.pos_chain (by rw [euclidian_dist_comm]; exact hdist)
    · exact chain'_snoc hInv.time_gap (by linarith)
    · show (s.time ++ [s.t] ++ [tn]).head? = some tmin
      rw [List.head?_append_of_ne_nil _ (by simp), hInv.head_eq]
    · simp [hInv.len_eq]
    · exact h3
    · exact hsorted
    · intro p hp
      obtain ⟨hpa, hpb, hpc⟩ := hmem p hp
      exact ⟨hpa, by linarith, hpc⟩
    · intro _ htn
      refine ⟨lt_min (by linarith) htn, min_le_left _ _, min_le_right _ _⟩
  · cases hres
    constructor
    · exact hInv.dwell_eq
    · exact hInv.time_sorted
    · exact hInv.pos_chain
    · exact hInv.time_gap
    · exact hInv.head_eq
    · exact hInv.len_eq
    · exact hInv.t_le
    · show List.Pairwise _ ((trajectory ((tn + s.t) / 2), (tn + s.t) / 2) :: (xn, tn) :: stack)
      rw [List.pairwise_cons, List.pairwise_cons]
      refine ⟨?_, ?_, hsorted⟩
      · intro p hp
        simp only [List.mem_cons] at hp
        rcases hp with rfl | hp
        · show (tn + s.t) / 2 < tn
          linarith
        · have := (hmem p hp).1
          show (tn + s.t) / 2 < p.2
          linarith
      · intro p hp
        exact (hmem p hp).1
    · intro p hp
      simp only [List.mem_cons] at hp
      rcases hp with rfl | rfl | hp
      · exact ⟨by simp only; linarith, by simp only; linarith, by simp only; linarith⟩
      · exact ⟨h1, h2, h3⟩
      · obtain ⟨hpa, hpb, hpc⟩ := hmem p hp
        exact ⟨by linarith, hpb, hpc⟩
    · intro hcontra
      simp at hcontra

theorem dtAcceptReject_cont {trajectory : ℝ → THV} {tmax dx dt : ℝ}
    {s : DTState} {xn : THV} {tn : ℝ} {stack : List (THV × ℝ)} :
    ∃ s', dtAcceptReject trajectory tmax dx dt s xn tn stack = .cont s' := by
  unfold dtAcceptReject
  split_ifs <;> exact ⟨_, rfl⟩


theorem dtStep_inv {trajectory : ℝ → THV} {tmin tmax dx dt : ℝ} {max_iter : ℕ}
    {s s' : DTState} (hInv : DTInv tmin tmax dx dt s) (hdt : 0 < dt)
    (hres : dtStep trajectory tmax dx dt max_iter s = .cont s') :
    DTInv tmin tmax dx dt s' := by
  unfold dtStep at hres
  split_ifs at hres with ht
  · split at hres
    · rename_i hemp
      obtain ⟨hta, htb, htc⟩ := hInv.tnext_ok hemp ht
      exact dtAcceptReject_inv hInv hdt hta htb htc List.Pairwise.nil (by simp) hres
    · rename_i xn tn rest hcons
      by_cases hlen : max_iter < rest.length + 1
      · rw [if_pos hlen] at hres
        cases hres
      · rw [if_neg hlen] at hres
        have hhead : (xn, tn) ∈ s.nextxt := by rw [hcons]; exact List.mem_cons_self _ _
        obtain ⟨hta, htb, htc⟩ := hInv.stack_mem _ hhead
        have hpair := hInv.stack_sorted
        rw [hcons, List.pairwise_cons] at hpair
        have hmem : ∀ p ∈ rest, tn < p.2 ∧ p.2 ≤ s.t + dt ∧ p.2 ≤ tmax := by
          intro p hp
          have hin : p ∈ s.nextxt := by rw [hcons]; exact List.mem_cons_of_mem _ hp
          obtain ⟨_, hb, hc⟩ := hInv.stack_mem p hin
          exact ⟨hpair.1 p hp, hb, hc⟩
        exact dtAcceptReject_inv hInv hdt hta htb htc hpair.2 hmem hres

theorem dtStep_done_iff {trajectory : ℝ → THV} {tmax dx dt : ℝ} {max_iter : ℕ}
    {s : DTState} {out : DTOutput} :
    dtStep trajectory tmax dx dt max_iter s = .done out ↔
      ¬ s.t < tmax ∧ out = ⟨s.position, s.dwell, s.time⟩ := by
  unfold dtStep
  split_ifs with ht
  · simp only [ht, not_true_eq_false, false_and, iff_false]
    split
    · rename_i hemp
      obtain ⟨s', hs'⟩ := @dtAcceptReject_cont trajectory tmax dx dt s (trajectory s.tnext) s.tnext []
      rw [hs']
      simp
    · rename_i xn tn rest hcons
      by_cases hlen : max_iter < rest.length + 1
      · rw [if_pos hlen]
        simp
      · rw [if_neg hlen]
        obtain ⟨s', hs'⟩ := @dtAcceptReject_cont trajectory tmax dx dt s xn tn rest
        rw [hs']
        simp
  · constructor
    · intro hres
      cases hres
      exact ⟨ht, rfl⟩
    · intro h
      rw [h.2]

theorem dtStep_err_iff {trajectory : ℝ → THV} {tmax dx dt : ℝ} {max_iter : ℕ}
    {s : DTState} :
    dtStep trajectory tmax dx dt max_iter s = .err ↔
      s.t < tmax ∧ max_iter < s.nextxt.length := by
  unfold dtStep
  split_ifs with ht
  · split
    · rename_i hemp
      obtain ⟨s', hs'⟩ := @dtAcceptReject_cont trajectory tmax dx dt s (trajectory s.tnext) s.tnext []
      rw [hs', hemp]
      simp
    · rename_i xn tn rest hcons
      by_cases hlen : max_iter < rest.length + 1
      · rw [if_pos hlen]
        simp [hcons, ht, hlen]
      · rw [if_neg hlen]
        obtain ⟨s', hs'⟩ := @dtAcceptReject_cont trajectory tmax dx dt s xn tn rest
        rw [hs', hcons]
        simp only [List.length_cons, iff_false, ne_eq]
        constructor
        · intro hc
          cases hc
        · intro hc
          exact absurd hc.2 hlen
  · simp [ht]

theorem dtLoop_ok_inv {trajectory : ℝ → THV} {tmin tmax dx dt : ℝ} {max_iter : ℕ}
    (hdt : 0 < dt) :
    ∀ (fuel : ℕ) (s : DTState) (out : DTOutput), DTInv tmin tmax dx dt s →
      dtLoop trajectory tmax dx dt max_iter fuel s = .ok out →
      out.dwell = diffs (out.time ++ [tmax]) ∧
      List.Chain' (· < ·) (out.time ++ [tmax]) ∧
      List.Chain' (fun a b => euclidian_dist a b ≤ dx) out.position ∧
      List.Chain' (fun a b => b - a ≤ dt) (out.time ++ [tmax]) ∧
      (out.time ++ [tmax]).head? = some tmin ∧
      out.position.length = out.time.length := by
  intro fuel
  induction fuel with
  | zero =>
    intro s out _ hloop
    cases hloop
  | succ fuel ih =>
    intro s out hInv hloop
    unfold dtLoop at hloop
    cases hstep : dtStep trajectory tmax dx dt max_iter s with
    | cont s' =>
      rw [hstep] at hloop
      exact ih s' out (dtStep_inv hInv hdt hstep) hloop
    | done out' =>
      rw [hstep] at hloop
      cases hloop
      obtain ⟨hdone, hout⟩ := dtStep_done_iff.mp hstep
      have hteq : s.t = tmax := le_antisymm hInv.t_le (not_lt.mp hdone)
      rw [hout]
      refine ⟨?_, ?_, ?_, ?_, ?_, hInv.len_eq⟩
      · show s.dwell = diffs (s.time ++ [tmax])
        rw [← hteq]
        exact hInv.dwell_eq
      · show List.Chain' _ (s.time ++ [tmax])
        rw [← hteq]
        exact hInv.time_sorted
      · exact hInv.pos_chain.prefix (List.prefix_append _ _)
      · show List.Chain' _ (s.time ++ [tmax])
        rw [← hteq]
        exact hInv.time_gap
      · show (s.time ++ [tmax]).head? = some tmin
        rw [← hteq]
        exact hInv.head_eq
    | err =>
      rw [hstep] at hloop
      cases hloop

theorem dtAcceptReject_stuck {trajectory : ℝ → THV} {tmax dx dt : ℝ}
    {s : DTState} {xn : THV} {tn : ℝ} {stack : List (THV × ℝ)} {s' : DTState}
    (hdt : dt ≤ 0) (hJ : DTStuck tmax s) (htn : tn < tmax)
    (hstack : ∀ p ∈ stack, p.2 < tmax)
    (hres : dtAcceptReject trajectory tmax dx dt s xn tn stack = .cont s') :
    DTStuck tmax s' := by
  unfold dtAcceptReject at hres
  split_ifs at hres with hdist
  · cases hres
    refine ⟨htn, ?_, hstack⟩
    show min (tn + dt) tmax < tmax
    calc min (tn + dt) tmax ≤ tn + dt := min_le_left _ _
    _ ≤ tn := by linarith
    _ < tmax := htn
  · cases hres
    refine ⟨hJ.1, ?_, ?_⟩
    · show (tn + s.t) / 2 < tmax
      have := hJ.1
      linarith
    · intro p hp
      simp only [List.mem_cons] at hp
      rcases hp with rfl | rfl | hp
      · show (tn + s.t) / 2 < tmax
        have := hJ.1
        linarith
      · exact htn
      · exact hstack p hp

theorem dtStep_stuck {trajectory : ℝ → THV} {tmax dx dt : ℝ} {max_iter : ℕ}
    {s s' : DTState} (hdt : dt ≤ 0) (hJ : DTStuck tmax s)
    (hres : dtStep trajectory tmax dx dt max_iter s = .cont s') :
    DTStuck tmax s' := by
  unfold dtStep at hres
  split_ifs at hres with ht
  · split at hres
    · rename_i hemp
      exact dtAcceptReject_stuck hdt hJ hJ.2.1 (by simp) hres
    · rename_i xn tn rest hcons
      by_cases hlen : max_iter < rest.length + 1
      · rw [if_pos hlen] at hres
        cases hres
      · rw [if_neg hlen] at hres
        have hin : (xn, tn) ∈ s.nextxt := by rw [hcons]; exact List.mem_cons_self _ _
        refine dtAcceptReject_stuck hdt hJ (hJ.2.2 _ hin) ?_ hres
        intro p hp
        exact hJ.2.2 p (by rw [hcons]; exact List.mem_cons_of_mem _ hp)

theorem dtLoop_stuck_not_ok {trajectory : ℝ → THV} {tmax dx dt : ℝ} {max_iter : ℕ}
    (hdt : dt ≤ 0) :
    ∀ (fuel : ℕ) (s : DTState) (out : DTOutput), DTStuck tmax s →
      dtLoop trajectory tmax dx dt max_iter fuel s ≠ .ok out := by
  intro fuel
  induction fuel with
  | zero =>
    intro s out _ hloop
    cases hloop
  | succ fuel ih =>
    intro s out hJ hloop
    unfold dtLoop at hloop
    cases hstep : dtStep trajectory tmax dx dt max_iter s with
    | cont s' =>
      rw [hstep] at hloop
      exact ih s' out (dtStep_stuck hdt hJ hstep) hloop
    | done out' =>
      obtain ⟨hdone, _⟩ := dtStep_done_iff.mp hstep
      exact absurd hJ.1 hdone
    | err =>
      rw [hstep] at hloop
      cases hloop

theorem diffs_sum_concat (l : List ℝ) (a b : ℝ) :
    (diffs (a :: l ++ [b])).sum = b - a := by
  induction l generalizing a with
  | nil =>
    simp [diffs_cons_cons, diffs_singleton]
  | cons c l ih =>
    rw [show a :: (c :: l) ++ [b] = a :: c :: (l ++ [b]) from rfl, diffs_cons_cons,
      List.sum_cons, show c :: (l ++ [b]) = c :: l ++ [b] from rfl, ih c]
    ring

theorem discrete_trajectory_ok_props
    {trajectory : ℝ → THV} {tmin tmax dx dt : ℝ} {fuel max_iter : ℕ} {out : DTOutput}
    (h : discrete_trajectory trajectory tmin tmax dx dt fuel max_iter = .ok out) :
    (List.Chain' (fun a b => euclidian_dist a b ≤ dx) out.position ∧
     List.Chain' (· < ·) out.time ∧
     List.Chain' (fun a b => b - a ≤ dt) out.time ∧
     out.position.length = out.time.length) ∧
    (tmin < tmax →
      out.time.head? = some tmin ∧
      out.dwell = diffs (out.time ++ [tmax]) ∧
      out.dwell.sum = tmax - tmin) := by
  unfold discrete_trajectory at h
  rcases lt_or_le tmin tmax with hlt | hge
  · rcases le_or_lt dt 0 with hdt | hdt
    · exfalso
      refine dtLoop_stuck_not_ok hdt fuel _ out ⟨hlt, ?_, by simp⟩ h
      show min (tmin + dt) tmax < tmax
      calc min (tmin + dt) tmax ≤ tmin + dt := min_le_left _ _
      _ ≤ tmin := by linarith
      _ < tmax := hlt
    · have hInv : DTInv tmin tmax dx dt
          ⟨[], [], [], [], trajectory tmin, tmin, min (tmin + dt) tmax⟩ := by
        constructor
        · simp [diffs]
        · simp
        · simp
        · simp
        · simp
        · rfl
        · exact le_of_lt hlt
        · exact List.Pairwise.nil
        · simp
        · intro _ _
          exact ⟨lt_min (by linarith) hlt, min_le_left _ _, min_le_right _ _⟩
      obtain ⟨hdw, hts, hpc, htg, hhd, hlen⟩ := dtLoop_ok_inv hdt fuel _ out hInv h
      have htime_ne : out.time ≠ [] := by
        intro hnil
        rw [hnil] at hhd
        simp at hhd
        exact absurd hhd (ne_of_gt hlt)
      obtain ⟨a, rest, hcons⟩ := List.exists_cons_of_ne_nil htime_ne
      have ha : a = tmin := by
        rw [hcons] at hhd
        simpa using hhd
      refine ⟨⟨hpc, hts.prefix (List.prefix_append _ _),
        htg.prefix (List.prefix_append _ _), hlen⟩, ?_⟩
      intro _
      refine ⟨?_, hdw, ?_⟩
      · rw [hcons, ha]
        rfl
      · rw [hdw, hcons, ha]
        exact diffs_sum_concat rest tmin tmax
  · cases fuel with
    | zero => cases h
    | succ fuel =>
      unfold dtLoop at h
      have hstep : dtStep trajectory tmax dx dt max_iter
          ⟨[], [], [], [], trajectory tmin, tmin, min (tmin + dt) tmax⟩ =
          .done ⟨[], [], []⟩ := by
        rw [dtStep_done_iff]
        exact ⟨not_lt.mpr hge, rfl⟩
      rw [hstep] at h
      cases h
      refine ⟨⟨by simp, by simp, by simp, rfl⟩, ?_⟩
      intro hlt
      exact absurd hlt (not_lt.mpr hge)

theorem dtLoop_succ (trajectory : ℝ → THV) (tmax dx dt : ℝ) (max_iter fuel : ℕ)
    (s : DTState) :
    dtLoop trajectory tmax dx dt max_iter (fuel + 1) s =
      match dtStep trajectory tmax dx dt max_iter s with
      | .cont s' => dtLoop trajectory tmax dx dt max_iter fuel s'
      | .done out => .ok out
      | .err => .err := rfl

theorem dtLoop_cont {trajectory : ℝ → THV} {tmax dx dt : ℝ} {max_iter : ℕ}
    {s s' : DTState} (h : dtStep trajectory tmax dx dt max_iter s = .cont s')
    (fuel : ℕ) :
    dtLoop trajectory tmax dx dt max_iter (fuel + 1) s =
      dtLoop trajectory tmax dx dt max_iter fuel s' := by
  rw [dtLoop_succ, h]

theorem dtLoop_done {trajectory : ℝ → THV} {tmax dx dt : ℝ} {max_iter : ℕ}
    {s : DTState} {out : DTOutput}
    (h : dtStep trajectory tmax dx dt max_iter s = .done out) (fuel : ℕ) :
    dtLoop trajectory tmax dx dt max_iter (fuel + 1) s = .ok out := by
  rw [dtLoop_succ, h]

theorem dtLoop_err_of_step {trajectory : ℝ → THV} {tmax dx dt : ℝ} {max_iter : ℕ}
    {s : DTState} (h : dtStep trajectory tmax dx dt max_iter s = .err) (fuel : ℕ) :
    dtLoop trajectory tmax dx dt max_iter (fuel + 1) s = .err := by
  rw [dtLoop_succ, h]

theorem dtStep_const_accept {c : THV} {tmax dx : ℝ} {max_iter : ℕ}
    (hdx : 0 ≤ dx) {pos : List THV} {time dwell : List ℝ} {t tn : ℝ}
    (ht : t < tmax) :
    dtStep (fun _ => c) tmax dx 1 max_iter ⟨pos, time, dwell, [], c, t, tn⟩ =
      .cont ⟨pos ++ [c], time ++ [t], dwell ++ [tn - t], [], c, tn, min (tn + 1) tmax⟩ := by
  unfold dtStep
  rw [if_pos ht]
  show dtAcceptReject _ _ _ _ _ _ _ _ = _
  unfold dtAcceptReject
  rw [euclidian_dist_self, if_pos hdx]

theorem dtLoop_const {c : THV} {tmax dx : ℝ} {max_iter : ℕ} (hdx : 0 ≤ dx) :
    ∀ (n fuel : ℕ) (pos : List THV) (time dwell : List ℝ) (t : ℝ),
      t < tmax → (⌈tmax - t⌉).toNat = n → n < fuel →
      ∃ out, dtLoop (fun _ => c) tmax dx 1 max_iter fuel
          ⟨pos, time, dwell, [], c, t, min (t + 1) tmax⟩ = .ok out ∧
        out.position.length = pos.length + n ∧
        out.dwell.sum = dwell.sum + (tmax - t) := by
  intro n
  induction n with
  | zero =>
    intro fuel pos time dwell t ht hn _
    exfalso
    have hpos : (0 : ℤ) < ⌈tmax - t⌉ := Int.ceil_pos.mpr (by linarith)
    omega
  | succ n ih =>
    intro fuel pos time dwell t ht hn hfuel
    cases fuel with
    | zero => omega
    | succ fuel =>
      rw [dtLoop_cont (dtStep_const_accept hdx ht)]
      by_cases hT : t + 1 < tmax
      · have hmin : min (t + 1) tmax = t + 1 := min_eq_left (le_of_lt hT)
        rw [hmin]
        have hceil : (⌈tmax - (t + 1)⌉).toNat = n := by
          have h1 : ⌈tmax - (t + 1)⌉ = ⌈tmax - t⌉ - 1 := by
            rw [show tmax - (t + 1) = (tmax - t) - ((1 : ℤ) : ℝ) by push_cast; ring,
              Int.ceil_sub_int]
          omega
        obtain ⟨out, hout, hlen, hsum⟩ :=
          ih fuel (pos ++ [c]) (time ++ [t]) (dwell ++ [t + 1 - t]) (t + 1) hT hceil
            (by omega)
        refine ⟨out, hout, ?_, ?_⟩
        · rw [hlen]
          simp
          omega
        · rw [hsum]
          simp
          ring
      · have hT' : tmax ≤ t + 1 := not_lt.mp hT
        have hmin : min (t + 1) tmax = tmax := min_eq_right hT'
        rw [hmin]
        have hone : ⌈tmax - t⌉ = 1 := by
          rw [Int.ceil_eq_iff]
          constructor
          · push_cast
            linarith
          · push_cast
            linarith
        have hn0 : n = 0 := by omega
        cases fuel with
        | zero => omega
        | succ fuel =>
          have hdone : dtStep (fun _ => c) tmax dx 1 max_iter
              ⟨pos ++ [c], time ++ [t], dwell ++ [tmax - t], [], c, tmax,
                min (tmax + 1) tmax⟩ =
              .done ⟨pos ++ [c], dwell ++ [tmax - t], time ++ [t]⟩ := by
            rw [dtStep_done_iff]
            exact ⟨lt_irrefl tmax, rfl⟩
          rw [dtLoop_done hdone]
          refine ⟨⟨pos ++ [c], dwell ++ [tmax - t], time ++ [t]⟩, rfl, ?_, ?_⟩
          · simp [hn0]
          · simp

/-- C1: for every successful run of `discrete_trajectory` and every pair of
consecutive accepted sample points, the embedded Euclidean distance
`euclidian_dist prev next` is at most `dx` and the time gap `next - prev`
is at most `dt`.  The conclusion quantifies over all consecutive pairs of the
output, so it covers in particular candidates accepted after being deferred
on the bisection stack. -/
theorem discrete_trajectory_consecutive_bounds
    (trajectory : ℝ → THV) (tmin tmax dx dt : ℝ) (fuel max_iter : ℕ) (out : DTOutput)
    (h : discrete_trajectory trajectory tmin tmax dx dt fuel max_iter = .ok out) :
    List.Chain' (fun a b => euclidian_dist a b ≤ dx) out.position ∧
    List.Chain' (fun a b => b - a ≤ dt) out.time :=
  ⟨(discrete_trajectory_ok_props h).1.1, (discrete_trajectory_ok_props h).1.2.2.1⟩

theorem discrete_trajectory_consecutive_bounds_witness :
    ∃ out, discrete_trajectory (fun _ => THV.mk 0 0 0) 0 2 1 1 3 16 = .ok out ∧
      List.Chain' (fun a b => euclidian_dist a b ≤ 1) out.position ∧
      List.Chain' (fun a b => b - a ≤ 1) out.time := by
  obtain ⟨out, hout, -, -⟩ := @dtLoop_const (THV.mk 0 0 0) 2 1 16 (by norm_num) 2 3 [] [] [] 0 (by norm_num)
    (by norm_num; rfl) (by norm_num)
  exact ⟨out, hout,
    discrete_trajectory_consecutive_bounds (fun _ => THV.mk 0 0 0) 0 2 1 1 3 16 out hout⟩

/-- C10: for every successful run with `tmin < tmax`, the returned time list
is strictly increasing and starts at `tmin`, the dwell list is exactly the
list of successive differences of the time list extended by `tmax` (so each
dwell entry is the gap to the next accepted time, the walk ending exactly at
`tmax`), and the dwell times sum to `tmax - tmin`. -/
theorem discrete_trajectory_time_dwell_invariants
    (trajectory : ℝ → THV) (tmin tmax dx dt : ℝ) (fuel max_iter : ℕ) (out : DTOutput)
    (hlt : tmin < tmax)
    (h : discrete_trajectory trajectory tmin tmax dx dt fuel max_iter = .ok out) :
    List.Chain' (· < ·) out.time ∧
    out.time.head? = some tmin ∧
    out.dwell = diffs (out.time ++ [tmax]) ∧
    out.dwell.sum = tmax - tmin := by
  obtain ⟨⟨-, hts, -, -⟩, hrest⟩ := discrete_trajectory_ok_props h
  obtain ⟨hhd, hdw, hsum⟩ := hrest hlt
  exact ⟨hts, hhd, hdw, hsum⟩

theorem discrete_trajectory_time_dwell_invariants_witness :
    (0 : ℝ) < 2 ∧
    ∃ out, discrete_trajectory (fun _ => THV.mk 0 0 0) 0 2 1 1 3 16 = .ok out ∧
      List.Chain' (· < ·) out.time ∧
      out.time.head? = some (0 : ℝ) ∧
      out.dwell = diffs (out.time ++ [2]) ∧
      out.dwell.sum = 2 - 0 := by
  refine ⟨by norm_num, ?_⟩
  obtain ⟨out, hout, -, -⟩ := @dtLoop_const (THV.mk 0 0 0) 2 1 16 (by norm_num) 2 3 [] [] [] 0 (by norm_num)
    (by norm_num; rfl) (by norm_num)
  exact ⟨out, hout,
    discrete_trajectory_time_dwell_invariants (fun _ => THV.mk 0 0 0) 0 2 1 1 3 16 out
      (by norm_num) hout⟩

/-- C8: for every `T > 0`, running `discrete_trajectory` on a constant path
over `[0, T)` with `dt = 1` and any `dx ≥ 0` succeeds (given enough fuel for
the `⌈T⌉` accepting iterations plus the final exit check) and produces
exactly `⌈T⌉` sample points whose dwell times sum to `T`. -/
theorem discrete_trajectory_const_path (c : THV) (T dx : ℝ) (max_iter fuel : ℕ)
    (hT : 0 < T) (hdx : 0 ≤ dx) (hfuel : (⌈T⌉).toNat < fuel) :
    ∃ out, discrete_trajectory (fun _ => c) 0 T dx 1 fuel max_iter = .ok out ∧
      (out.position.length : ℤ) = ⌈T⌉ ∧ out.dwell.sum = T := by
  obtain ⟨out, hout, hlen, hsum⟩ := @dtLoop_const c T dx max_iter hdx (⌈T⌉).toNat fuel [] [] [] 0 hT (by norm_num) hfuel
  refine ⟨out, hout, ?_, by simpa using hsum⟩
  rw [hlen]
  have hnn : (0 : ℤ) ≤ ⌈T⌉ := le_of_lt (Int.ceil_pos.mpr hT)
  simp [Int.toNat_of_nonneg hnn]

theorem discrete_trajectory_const_path_witness :
    ∃ out, discrete_trajectory (fun _ => THV.mk 0 0 0) 0 2 1 1 3 16 = .ok out ∧
      (out.position.length : ℤ) = ⌈(2 : ℝ)⌉ ∧ out.dwell.sum = 2 :=
  discrete_trajectory_const_path (THV.mk 0 0 0) 2 1 16 3 (by norm_num) (by norm_num)
    (by norm_num)

theorem stepN_succ_cont {trajectory : ℝ → THV} {tmax dx dt : ℝ} {max_iter : ℕ}
    {s s' : DTState} (h : dtStep trajectory tmax dx dt max_iter s = .cont s')
    (n : ℕ) :
    stepN trajectory tmax dx dt max_iter (n + 1) s =
      stepN trajectory tmax dx dt max_iter n s' := by
  simp only [stepN]
  rw [h]

theorem dtLoop_err_iff {trajectory : ℝ → THV} {tmax dx dt : ℝ} {max_iter : ℕ} :
    ∀ (fuel : ℕ) (s : DTState),
      dtLoop trajectory tmax dx dt max_iter fuel s = .err ↔
      ∃ n s', n + 1 ≤ fuel ∧
        stepN trajectory tmax dx dt max_iter n s = some s' ∧
        s'.t < tmax ∧ max_iter < s'.nextxt.length := by
  intro fuel
  induction fuel with
  | zero =>
    intro s
    constructor
    · intro h
      cases h
    · rintro ⟨n, s', hn, -⟩
      omega
  | succ fuel ih =>
    intro s
    cases hstep : dtStep trajectory tmax dx dt max_iter s with
    | cont s' =>
      rw [dtLoop_cont hstep, ih s']
      constructor
      · rintro ⟨n, s'', hn, hsn, ht, hlen⟩
        refine ⟨n + 1, s'', by omega, ?_, ht, hlen⟩
        rw [stepN_succ_cont hstep]
        exact hsn
      · rintro ⟨n, s'', hn, hsn, ht, hlen⟩
        cases n with
        | zero =>
          rw [show stepN trajectory tmax dx dt max_iter 0 s = some s from rfl] at hsn
          cases hsn
          have herr : dtStep trajectory tmax dx dt max_iter s = .err :=
            dtStep_err_iff.mpr ⟨ht, hlen⟩
          rw [hstep] at herr
          cases herr
        | succ n =>
          rw [stepN_succ_cont hstep] at hsn
          exact ⟨n, s'', by omega, hsn, ht, hlen⟩
    | done out =>
      rw [dtLoop_done hstep]
      constructor
      · intro h
        cases h
      · rintro ⟨n, s'', hn, hsn, ht, hlen⟩
        cases n with
        | zero =>
          rw [show stepN trajectory tmax dx dt max_iter 0 s = some s from rfl] at hsn
          cases hsn
          exact absurd ht (dtStep_done_iff.mp hstep).1
        | succ n =>
          unfold stepN at hsn
          rw [hstep] at hsn
          cases hsn
    | err =>
      rw [dtLoop_err_of_step hstep]
      constructor
      · intro _
        obtain ⟨ht, hlen⟩ := dtStep_err_iff.mp hstep
        exact ⟨0, s, by omega, rfl, ht, hlen⟩
      · intro _
        rfl

theorem jumpPath_nonpos {t : ℝ} (h : t ≤ 0) : jumpPath t = THV.mk 0 0 0 :=
  if_pos h

theorem jumpPath_pos {t : ℝ} (h : 0 < t) : jumpPath t = THV.mk 0 2 0 :=
  if_neg (not_le.mpr h)

theorem euclidian_dist_jump : euclidian_dist (THV.mk 0 2 0) (THV.mk 0 0 0) = 2 := by
  unfold euclidian_dist thetahv_to_xyz
  norm_num
  rw [show (4 : ℝ) = 2 ^ 2 by norm_num]
  exact Real.sqrt_sq (by norm_num)

theorem jump_run_err : discrete_trajectory jumpPath 0 1 1 1 3 2 = .err := by
  have h0 : dtStep jumpPath 1 1 1 2 ⟨[], [], [], [], THV.mk 0 0 0, 0, 1⟩ =
      .cont ⟨[], [], [],
        [(THV.mk 0 2 0, 1 / 2), (THV.mk 0 2 0, 1)], THV.mk 0 0 0, 0, 1 / 2⟩ := by
    unfold dtStep dtAcceptReject
    norm_num [jumpPath_pos, euclidian_dist_jump]
  have h1 : dtStep jumpPath 1 1 1 2
      ⟨[], [], [], [(THV.mk 0 2 0, 1 / 2), (THV.mk 0 2 0, 1)], THV.mk 0 0 0, 0, 1 / 2⟩ =
      .cont ⟨[], [], [],
        [(THV.mk 0 2 0, 1 / 4), (THV.mk 0 2 0, 1 / 2), (THV.mk 0 2 0, 1)],
        THV.mk 0 0 0, 0, 1 / 4⟩ := by
    unfold dtStep dtAcceptReject
    norm_num [jumpPath_pos, euclidian_dist_jump]
  have h2 : dtStep jumpPath 1 1 1 2
      ⟨[], [], [],
        [(THV.mk 0 2 0, 1 / 4), (THV.mk 0 2 0, 1 / 2), (THV.mk 0 2 0, 1)],
        THV.mk 0 0 0, 0, 1 / 4⟩ = .err := by
    rw [dtStep_err_iff]
    norm_num
  have hinit : (⟨[], [], [], [], jumpPath 0, 0, min (0 + 1 : ℝ) 1⟩ : DTState) =
      ⟨[], [], [], [], THV.mk 0 0 0, 0, 1⟩ := by
    rw [jumpPath_nonpos le_rfl]
    norm_num
  show dtLoop jumpPath 1 1 1 2 3 ⟨[], [], [], [], jumpPath 0, 0, min (0 + 1 : ℝ) 1⟩ = .err
  rw [hinit, show (3 : ℕ) = 2 + 1 from rfl, dtLoop_cont h0,
    show (2 : ℕ) = 1 + 1 from rfl, dtLoop_cont h1]
  exact dtLoop_err_of_step h2 0

/-- C3: `discrete_trajectory` ends in the hard error exactly when the loop
reaches a state, still before `tmax`, whose deferred-candidate stack holds
more than `max_iter` entries (every stack entry being a deferred, not yet
accepted candidate); a path with a jump discontinuity exceeding `dx` that
never resolves produces this error; the error is terminal (never retried,
`dtLoop` stops at the first `err` step) and `max_iter` defaults to 16. -/
theorem discrete_trajectory_error_conditions :
    (∀ (trajectory : ℝ → THV) (tmin tmax dx dt : ℝ) (fuel max_iter : ℕ),
      discrete_trajectory trajectory tmin tmax dx dt fuel max_iter = .err ↔
      ∃ n s', n + 1 ≤ fuel ∧
        stepN trajectory tmax dx dt max_iter n
          ⟨[], [], [], [], trajectory tmin, tmin, min (tmin + dt) tmax⟩ = some s' ∧
        s'.t < tmax ∧ max_iter < s'.nextxt.length) ∧
    discrete_trajectory jumpPath 0 1 1 1 3 2 = .err ∧
    (∀ (trajectory : ℝ → THV) (tmin tmax dx dt : ℝ) (fuel : ℕ),
      discrete_trajectory trajectory tmin tmax dx dt fuel =
        discrete_trajectory trajectory tmin tmax dx dt fuel 16) :=
  ⟨fun _ _ _ _ _ fuel _ => dtLoop_err_iff fuel _,
   jump_run_err,
   fun _ _ _ _ _ _ => rfl⟩

/-- C9 counterexample: at `theta = π/2`, `h = 1`, `v = 0`, `radius = 0`, the
code's embedding gives the point `(1, 0, 0)` while the standard rotation
matrix `R_z theta` applied to the vector `(radius, h, v)` gives `(-1, 0, 0)`;
so `thetahv_to_xyz` is not `R_z theta` applied to `(radius, h, v)`. -/
theorem thetahv_to_xyz_not_rotZ :
    thetahv_to_xyz ⟨Real.pi / 2, 1, 0⟩ 0 ≠ rotZ (Real.pi / 2) ⟨0, 1, 0⟩ := by
  intro hEq
  have hx := congrArg XYZ.x hEq
  simp only [thetahv_to_xyz, rotZ, Real.cos_pi_div_two, Real.sin_pi_div_two] at hx
  norm_num at hx

/-- C9 (amended): `thetahv_to_xyz ⟨theta, h, v⟩ radius` equals the standard
rotation matrix applied with angle `-theta` — i.e. the transpose (inverse) of
`R_z theta` — to the vector `(radius, h, v)`, and the default radius is
`0.75`. -/
theorem thetahv_to_xyz_rotZ_neg :
    (∀ (theta h v radius : ℝ),
      thetahv_to_xyz ⟨theta, h, v⟩ radius = rotZ (-theta) ⟨radius, h, v⟩) ∧
    ∀ p : THV, thetahv_to_xyz p = thetahv_to_xyz p 0.75 := by
  constructor
  · intro theta h v radius
    simp only [thetahv_to_xyz, rotZ, Real.cos_neg, Real.sin_neg, XYZ.mk.injEq]
    refine ⟨by ring, by ring, trivial⟩
  · intro p
    rfl

theorem line_offsets_ok_eq {density_profile : ℝ → ℝ → ℝ} {width aspect pixel_size : ℝ}
    (hc : ¬(width < pixel_size / 16 ∨ width * aspect < pixel_size / 16)) :
    line_offsets density_profile width aspect pixel_size =
      .ok (line_width_of width pixel_size,
        lines_of density_profile width aspect pixel_size) := by
  unfold line_offsets
  rw [if_neg hc]
  rfl

/-- C7: `line_offsets` fails, with the hard `NotImplementedError`, exactly
when `width < pixel_size / 16` or `height = width * aspect < pixel_size / 16`;
otherwise it returns a decomposition without error.  The error is a plain
raise, never retried. -/
theorem line_offsets_error_iff (density_profile : ℝ → ℝ → ℝ)
    (width aspect pixel_size : ℝ) :
    (∃ e, line_offsets density_profile width aspect pixel_size = .error e) ↔
      width < pixel_size / 16 ∨ width * aspect < pixel_size / 16 := by
  by_cases hc : width < pixel_size / 16 ∨ width * aspect < pixel_size / 16
  · refine ⟨fun _ => hc, fun _ => ⟨"Why are you using such large pixels?", ?_⟩⟩
    unfold line_offsets
    rw [if_pos hc]
  · refine ⟨?_, fun h => absurd h hc⟩
    rintro ⟨e, he⟩
    rw [line_offsets_ok_eq hc] at he
    cases he

theorem line_width_of_pos {width pixel_size : ℝ} (hps : 0 < pixel_size)
    (hw : pixel_size / 16 ≤ width) :
    0 < line_width_of width pixel_size ∧
      (1 : ℝ) ≤ ((⌈width / (pixel_size / 16)⌉ : ℤ) : ℝ) := by
  have hlw0 : 0 < pixel_size / 16 := by linarith
  have hwpos : 0 < width := lt_of_lt_of_le hlw0 hw
  have hratio : (1 : ℝ) ≤ width / (pixel_size / 16) :=
    (one_le_div hlw0).mpr hw
  have hceil : (1 : ℤ) ≤ ⌈width / (pixel_size / 16)⌉ := by
    have := Int.le_ceil (width / (pixel_size / 16))
    have h1 : (0 : ℤ) < ⌈width / (pixel_size / 16)⌉ :=
      Int.ceil_pos.mpr (by linarith)
    omega
  have hcast : (1 : ℝ) ≤ ((⌈width / (pixel_size / 16)⌉ : ℤ) : ℝ) := by
    exact_mod_cast hceil
  exact ⟨div_pos hwpos (by linarith), hcast⟩

/-- C2: whenever `line_offsets` succeeds (both probe dimensions at least
`pixel_size / 16`, positive `pixel_size`), the derived `line_width` is
`width / ⌈width / (pixel_size / 16)⌉`, which is at most `pixel_size / 16`,
divides `width` into a positive integer number of cells, and is the largest
such value; concretely, for `width = height = 0.16` and `pixel_size = 0.01`
the derived `line_width` equals `pixel_size / 16` exactly and the per-axis
count is the integer `256` with `256 * line_width = width`. -/
theorem line_offsets_line_width_spec :
    (∀ (density_profile : ℝ → ℝ → ℝ) (width aspect pixel_size : ℝ),
      0 < pixel_size →
      ¬(width < pixel_size / 16 ∨ width * aspect < pixel_size / 16) →
      ∃ lines, line_offsets density_profile width aspect pixel_size =
          .ok (line_width_of width pixel_size, lines) ∧
        line_width_of width pixel_size =
          width / ((⌈width / (pixel_size / 16)⌉ : ℤ) : ℝ) ∧
        line_width_of width pixel_size ≤ pixel_size / 16 ∧
        (∃ n : ℕ, 0 < n ∧ (n : ℝ) * line_width_of width pixel_size = width) ∧
        (∀ l : ℝ, 0 < l → l ≤ pixel_size / 16 →
          (∃ n : ℕ, 0 < n ∧ (n : ℝ) * l = width) →
          l ≤ line_width_of width pixel_size)) ∧
    (line_width_of 0.16 0.01 = 0.01 / 16 ∧
      ∃ n : ℕ, (n : ℝ) = 0.16 / line_width_of 0.16 0.01 ∧
        (n : ℝ) * line_width_of 0.16 0.01 = 0.16) := by
  constructor
  · intro density_profile width aspect pixel_size hps hc
    have hw : pixel_size / 16 ≤ width := by
      rcases not_or.mp hc with ⟨h1, -⟩
      exact not_lt.mp h1
    have hlw0 : 0 < pixel_size / 16 := by linarith
    have hwpos : 0 < width := lt_of_lt_of_le hlw0 hw
    obtain ⟨hlwpos, hcast⟩ := line_width_of_pos hps hw
    have hcpos : (0 : ℝ) < ((⌈width / (pixel_size / 16)⌉ : ℤ) : ℝ) := by linarith
    refine ⟨lines_of density_profile width aspect pixel_size,
      line_offsets_ok_eq hc, rfl, ?_, ?_, ?_⟩
    · show width / ((⌈width / (pixel_size / 16)⌉ : ℤ) : ℝ) ≤ pixel_size / 16
      rw [div_le_iff₀ hcpos]
      have hle := Int.le_ceil (width / (pixel_size / 16))
      calc width = (width / (pixel_size / 16)) * (pixel_size / 16) := by
            field_simp
      _ ≤ ((⌈width / (pixel_size / 16)⌉ : ℤ) : ℝ) * (pixel_size / 16) := by
            apply mul_le_mul_of_nonneg_right hle (le_of_lt hlw0)
      _ = (pixel_size / 16) * ((⌈width / (pixel_size / 16)⌉ : ℤ) : ℝ) := by ring
    · refine ⟨(⌈width / (pixel_size / 16)⌉).toNat, ?_, ?_⟩
      · have : (1 : ℤ) ≤ ⌈width / (pixel_size / 16)⌉ := by exact_mod_cast hcast
        omega
      · have hnat : (((⌈width / (pixel_size / 16)⌉).toNat : ℤ) : ℝ) =
            ((⌈width / (pixel_size / 16)⌉ : ℤ) : ℝ) := by
          have : (1 : ℤ) ≤ ⌈width / (pixel_size / 16)⌉ := by exact_mod_cast hcast
          congr 1
          omega
        show ((((⌈width / (pixel_size / 16)⌉).toNat : ℕ) : ℝ)) *
            line_width_of width pixel_size = width
        rw [show ((((⌈width / (pixel_size / 16)⌉).toNat : ℕ) : ℝ)) =
            (((⌈width / (pixel_size / 16)⌉).toNat : ℤ) : ℝ) by push_cast; rfl, hnat]
        unfold line_width_of
        field_simp
    · intro l hl hlle ⟨n, hn, hnl⟩
      have hnR : (0 : ℝ) < (n : ℝ) := by exact_mod_cast hn
      have hlval : l = width / (n : ℝ) := by
        field_simp
        linarith [hnl]
      have hge : width / (pixel_size / 16) ≤ (n : ℝ) := by
        rw [div_le_iff₀ hlw0]
        calc width = (n : ℝ) * l := hnl.symm
        _ ≤ (n : ℝ) * (pixel_size / 16) := by
            apply mul_le_mul_of_nonneg_left hlle (le_of_lt hnR)
      have hceil_le : ((⌈width / (pixel_size / 16)⌉ : ℤ) : ℝ) ≤ (n : ℝ) := by
        have : ⌈width / (pixel_size / 16)⌉ ≤ (n : ℤ) := by
          rw [Int.ceil_le]
          exact_mod_cast hge
        exact_mod_cast this
      rw [hlval]
      unfold line_width_of
      exact div_le_div_of_nonneg_left (le_of_lt hwpos) hcpos hceil_le
  · have hceil : (⌈(0.16 : ℝ) / (0.01 / 16)⌉ : ℤ) = 256 := by
      norm_num
    constructor
    · unfold line_width_of
      rw [hceil]
      norm_num
    · refine ⟨256, ?_, ?_⟩
      · unfold line_width_of
        rw [hceil]
        norm_num
      · unfold line_width_of
        rw [hceil]
        norm_num

theorem line_offsets_line_width_spec_witness :
    (0 : ℝ) < 0.01 ∧
    ¬((0.16 : ℝ) < 0.01 / 16 ∨ (0.16 : ℝ) * 1 < 0.01 / 16) ∧
    ∃ lines, line_offsets (fun _ _ => 1) 0.16 1 0.01 =
        .ok (line_width_of 0.16 0.01, lines) ∧
      line_width_of 0.16 0.01 = (0.16 : ℝ) / ((⌈(0.16 : ℝ) / (0.01 / 16)⌉ : ℤ) : ℝ) ∧
      line_width_of 0.16 0.01 ≤ (0.01 : ℝ) / 16 ∧
      (∃ n : ℕ, 0 < n ∧ (n : ℝ) * line_width_of 0.16 0.01 = 0.16) ∧
      (∀ l : ℝ, 0 < l → l ≤ (0.01 : ℝ) / 16 →
        (∃ n : ℕ, 0 < n ∧ (n : ℝ) * l = 0.16) → l ≤ line_width_of 0.16 0.01) :=
  ⟨by norm_num, by norm_num,
    line_offsets_line_width_spec.1 (fun _ _ => 1) 0.16 1 0.01 (by norm_num) (by norm_num)⟩

theorem mem_gh_of {width ps x : ℝ} :
    x ∈ gh_of width ps ↔ ∃ j < nh_of width ps,
      x = (j : ℝ) * (width / (nh_of width ps : ℝ)) +
        (line_width_of width ps - width) / 2 := by
  unfold gh_of
  rw [List.mem_map]
  constructor
  · rintro ⟨j, hj, rfl⟩
    exact ⟨j, List.mem_range.mp hj, rfl⟩
  · rintro ⟨j, hj, rfl⟩
    exact ⟨j, List.mem_range.mpr hj, rfl⟩

theorem mem_gv_of {width aspect ps x : ℝ} :
    x ∈ gv_of width aspect ps ↔ ∃ i < nv_of width aspect ps,
      x = (i : ℝ) * ((width * aspect) / (nv_of width aspect ps : ℝ)) +
        (line_width_of width ps - width * aspect) / 2 := by
  unfold gv_of
  rw [List.mem_map]
  constructor
  · rintro ⟨i, hi, rfl⟩
    exact ⟨i, List.mem_range.mp hi, rfl⟩
  · rintro ⟨i, hi, rfl⟩
    exact ⟨i, List.mem_range.mpr hi, rfl⟩

theorem mem_lines_of {dp : ℝ → ℝ → ℝ} {width aspect ps : ℝ} {p : THV × ℝ} :
    p ∈ lines_of dp width aspect ps ↔
      ∃ hh ∈ gh_of width ps, ∃ vv ∈ gv_of width aspect ps,
        p = (THV.mk 0 hh vv, dp hh vv) := by
  unfold lines_of
  rw [List.mem_flatten]
  constructor
  · rintro ⟨l, hl, hp⟩
    obtain ⟨vv, hvv, rfl⟩ := List.mem_map.mp hl
    obtain ⟨hh, hhh, rfl⟩ := List.mem_map.mp hp
    exact ⟨hh, hhh, vv, hvv, rfl⟩
  · rintro ⟨hh, hhh, vv, hvv, rfl⟩
    refine ⟨_, List.mem_map.mpr ⟨vv, hvv, rfl⟩, List.mem_map.mpr ⟨hh, hhh, rfl⟩⟩

theorem grid_symmetry {n : ℕ} {L lw : ℝ} (hn : (n : ℝ) * lw = L) (hn0 : 0 < n)
    {j : ℕ} (hj : j < n) :
    -((j : ℝ) * (L / (n : ℝ)) + (lw - L) / 2) =
      ((n - 1 - j : ℕ) : ℝ) * (L / (n : ℝ)) + (lw - L) / 2 := by
  have hnR : (0 : ℝ) < (n : ℝ) := by exact_mod_cast hn0
  have hLn : L / (n : ℝ) = lw := by
    rw [← hn]
    field_simp
  have hcast : ((n - 1 - j : ℕ) : ℝ) = (n : ℝ) - 1 - (j : ℝ) := by
    have h1 : j ≤ n - 1 := by omega
    have h2 : 1 ≤ n := hn0
    push_cast [Nat.cast_sub h1, Nat.cast_sub h2]
    ring
  rw [hLn, hcast, ← hn]
  ring

theorem nh_of_mul {width ps : ℝ} (hps : 0 < ps) (hw : ps / 16 ≤ width) :
    (nh_of width ps : ℝ) * line_width_of width ps = width ∧ 0 < nh_of width ps := by
  obtain ⟨hlwpos, hcast⟩ := line_width_of_pos hps hw
  have hwpos : 0 < width := lt_of_lt_of_le (by linarith) hw
  have hcne : ((⌈width / (ps / 16)⌉ : ℤ) : ℝ) ≠ 0 := by linarith
  have hratio : width / line_width_of width ps = ((⌈width / (ps / 16)⌉ : ℤ) : ℝ) := by
    unfold line_width_of
    field_simp
  have hnh : nh_of width ps = (⌈width / (ps / 16)⌉).toNat := by
    unfold nh_of
    rw [hratio, Int.floor_intCast]
  have hge1 : (1 : ℤ) ≤ ⌈width / (ps / 16)⌉ := by exact_mod_cast hcast
  constructor
  · rw [hnh]
    have hcast2 : (((⌈width / (ps / 16)⌉).toNat : ℕ) : ℝ) =
        ((⌈width / (ps / 16)⌉ : ℤ) : ℝ) := by
      rw [show (((⌈width / (ps / 16)⌉).toNat : ℕ) : ℝ) =
          (((⌈width / (ps / 16)⌉).toNat : ℤ) : ℝ) by push_cast; rfl]
      congr 1
      omega
    rw [hcast2]
    unfold line_width_of
    field_simp
  · rw [hnh]
    omega

/-- C6 (amended): on every successful decomposition with `0 < pixel_size`,
the subline grid is symmetric about the probe center along the `h` axis:
for every offset `(0, Δh, Δv)` in the list, `(0, -Δh, Δv)` is also an offset
in the list.  It is symmetric along both axes — `(0, -Δh, -Δv)` also present
— under the additional hypothesis that the derived `line_width` divides
`height = width * aspect` into an integer number of cells
(`nv * line_width = height`, as happens e.g. when `aspect = 1`); without that
hypothesis the `v` grid need not be symmetric. -/
theorem line_offsets_offset_symmetry (dp : ℝ → ℝ → ℝ) (width aspect ps : ℝ)
    (hps : 0 < ps) (hc : ¬(width < ps / 16 ∨ width * aspect < ps / 16))
    (off : THV) (w : ℝ) (hmem : (off, w) ∈ lines_of dp width aspect ps) :
    (∃ w', (THV.mk 0 (-off.h) off.v, w') ∈ lines_of dp width aspect ps) ∧
    ((nv_of width aspect ps : ℝ) * line_width_of width ps = width * aspect →
      ∃ w', (THV.mk 0 (-off.h) (-off.v), w') ∈ lines_of dp width aspect ps) := by
  have hw : ps / 16 ≤ width := by
    rcases not_or.mp hc with ⟨h1, -⟩
    exact not_lt.mp h1
  obtain ⟨hh, hhh, vv, hvv, heq⟩ := mem_lines_of.mp hmem
  have hoff : off = THV.mk 0 hh vv := (Prod.mk.injEq _ _ _ _).mp heq |>.1
  obtain ⟨hnh_mul, hnh_pos⟩ := nh_of_mul hps hw
  obtain ⟨j, hj, rfl⟩ := mem_gh_of.mp hhh
  have hmirror_h : -(((j : ℝ) * (width / (nh_of width ps : ℝ)) +
      (line_width_of width ps - width) / 2)) =
      ((nh_of width ps - 1 - j : ℕ) : ℝ) * (width / (nh_of width ps : ℝ)) +
        (line_width_of width ps - width) / 2 :=
    grid_symmetry hnh_mul hnh_pos hj
  have hmem_h : -(((j : ℝ) * (width / (nh_of width ps : ℝ)) +
      (line_width_of width ps - width) / 2)) ∈ gh_of width ps :=
    mem_gh_of.mpr ⟨nh_of width ps - 1 - j, by omega, hmirror_h⟩
  constructor
  · refine ⟨dp (-off.h) off.v, ?_⟩
    apply mem_lines_of.mpr
    refine ⟨-off.h, ?_, off.v, ?_, rfl⟩
    · rw [hoff]
      exact hmem_h
    · rw [hoff]
      exact hvv
  · intro hnv_mul
    have hvpos : 0 < width * aspect := by
      have : ps / 16 ≤ width * aspect := by
        rcases not_or.mp hc with ⟨-, h2⟩
        exact not_lt.mp h2
      linarith
    have hnv_pos : 0 < nv_of width aspect ps := by
      by_contra hzero
      have h0 : nv_of width aspect ps = 0 := by omega
      rw [h0] at hnv_mul
      simp at hnv_mul
      rcases hnv_mul with h | h
      · rw [h, zero_mul] at hvpos
        exact lt_irrefl 0 hvpos
      · rw [h, mul_zero] at hvpos
        exact lt_irrefl 0 hvpos
    obtain ⟨i, hi, hveq⟩ := mem_gv_of.mp hvv
    have hmirror_v : -(((i : ℝ) * ((width * aspect) / (nv_of width aspect ps : ℝ)) +
        (line_width_of width ps - width * aspect) / 2)) =
        ((nv_of width aspect ps - 1 - i : ℕ) : ℝ) *
            ((width * aspect) / (nv_of width aspect ps : ℝ)) +
          (line_width_of width ps - width * aspect) / 2 :=
      grid_symmetry hnv_mul hnv_pos hi
    have hmem_v : -vv ∈ gv_of width aspect ps := by
      rw [hveq]
      exact mem_gv_of.mpr ⟨nv_of width aspect ps - 1 - i, by omega, hmirror_v⟩
    refine ⟨dp (-off.h) (-off.v), ?_⟩
    apply mem_lines_of.mpr
    refine ⟨-off.h, ?_, -off.v, ?_, rfl⟩
    · rw [hoff]
      exact hmem_h
    · rw [hoff]
      exact hmem_v

theorem line_width_of_2_16 : line_width_of 2 16 = 1 := by
  unfold line_width_of
  norm_num

theorem nh_of_2_16 : nh_of 2 16 = 2 := by
  unfold nh_of
  rw [line_width_of_2_16]
  norm_num
  rfl

theorem gh_of_2_16 : gh_of 2 16 = [-(1 / 2), 1 / 2] := by
  unfold gh_of
  rw [line_width_of_2_16, nh_of_2_16]
  norm_num [List.range_succ]

theorem nv_of_2_34_16 : nv_of 2 (3 / 4) 16 = 1 := by
  unfold nv_of
  rw [line_width_of_2_16]
  norm_num

theorem gv_of_2_34_16 : gv_of 2 (3 / 4) 16 = [-(1 / 4)] := by
  unfold gv_of
  rw [line_width_of_2_16, nv_of_2_34_16]
  norm_num [List.range_succ]

theorem lines_of_2_34_16 : lines_of (fun _ _ => 1) 2 (3 / 4) 16 =
    [(THV.mk 0 (-(1 / 2)) (-(1 / 4)), 1), (THV.mk 0 (1 / 2) (-(1 / 4)), 1)] := by
  unfold lines_of
  rw [gh_of_2_16, gv_of_2_34_16]
  simp

/-- C6 counterexample: the probe with `width = 2`, `aspect = 3/4`,
`pixel_size = 16` decomposes without error into the two sublines with offsets
`(0, -1/2, -1/4)` and `(0, 1/2, -1/4)`; the offset `(0, 1/2, -1/4)` is in the
list but its negation `(0, -1/2, 1/4)` is not, so the grid of subline centers
is not symmetric about the probe center. -/
theorem line_offsets_offset_symmetry_cex :
    line_offsets (fun _ _ => 1) 2 (3 / 4) 16 =
      .ok (1, [(THV.mk 0 (-(1 / 2)) (-(1 / 4)), 1), (THV.mk 0 (1 / 2) (-(1 / 4)), 1)]) ∧
    (THV.mk 0 (1 / 2) (-(1 / 4)), (1 : ℝ)) ∈
      [(THV.mk 0 (-(1 / 2)) (-(1 / 4)), (1 : ℝ)), (THV.mk 0 (1 / 2) (-(1 / 4)), 1)] ∧
    ∀ w : ℝ, (THV.mk 0 (-(1 / 2)) (1 / 4), w) ∉
      [(THV.mk 0 (-(1 / 2)) (-(1 / 4)), (1 : ℝ)), (THV.mk 0 (1 / 2) (-(1 / 4)), 1)] := by
  refine ⟨?_, ?_, ?_⟩
  · rw [line_offsets_ok_eq (by norm_num), line_width_of_2_16, lines_of_2_34_16]
  · simp
  · intro w
    simp only [List.mem_cons, List.not_mem_nil, or_false, Prod.mk.injEq, THV.mk.injEq,
      not_or]
    norm_num

theorem nv_of_2_1_16 : nv_of 2 1 16 = 2 := by
  unfold nv_of
  rw [line_width_of_2_16]
  norm_num
  rfl

theorem gv_of_2_1_16 : gv_of 2 1 16 = [-(1 / 2), 1 / 2] := by
  unfold gv_of
  rw [line_width_of_2_16, nv_of_2_1_16]
  norm_num [List.range_succ]

theorem lines_of_2_1_16 : lines_of (fun _ _ => 1) 2 1 16 =
    [(THV.mk 0 (-(1 / 2)) (-(1 / 2)), 1), (THV.mk 0 (1 / 2) (-(1 / 2)), 1),
     (THV.mk 0 (-(1 / 2)) (1 / 2), 1), (THV.mk 0 (1 / 2) (1 / 2), 1)] := by
  unfold lines_of
  rw [gh_of_2_16, gv_of_2_1_16]
  simp

theorem line_offsets_offset_symmetry_witness :
    (∃ w', (THV.mk 0 (-(-(1 / 2) : ℝ)) (-(1 / 2) : ℝ), w') ∈
      lines_of (fun _ _ => 1) 2 1 16) ∧
    ((nv_of 2 1 16 : ℝ) * line_width_of 2 16 = 2 * 1 →
      ∃ w', (THV.mk 0 (-(-(1 / 2) : ℝ)) (-(-(1 / 2) : ℝ)), w') ∈
        lines_of (fun _ _ => 1) 2 1 16) := by
  have hmem : (THV.mk 0 (-(1 / 2)) (-(1 / 2)), (1 : ℝ)) ∈
      lines_of (fun _ _ => 1) 2 1 16 := by
    rw [lines_of_2_1_16]
    simp
  exact line_offsets_offset_symmetry (fun _ _ => 1) 2 1 16 (by norm_num) (by norm_num)
    (THV.mk 0 (-(1 / 2)) (-(1 / 2))) 1 hmem

theorem pymod_eq_zero_iff {b ps : ℝ} (hps : ps ≠ 0) :
    pymod b ps = 0 ↔ ∃ k : ℤ, b = (k : ℝ) * ps := by
  unfold pymod
  constructor
  · intro h
    exact ⟨⌊b / ps⌋, by linarith⟩
  · rintro ⟨k, rfl⟩
    rw [mul_div_assoc, div_self hps, mul_one, Int.floor_intCast]
    ring

/-- C4: `coverage_approx` emits the alignment warning exactly when some
region bound is not an integer multiple of `pixel_size`; the output grid
shape per axis is always `⌈max / pixel_size⌉ - ⌊min / pixel_size⌋`, an
outward rounding that never truncates the requested region; region
`[[0,1],[0,1],[0,1]]` with `pixel_size = 1/2` gives no warning and shape
`(2,2,2)`; a region bound `0.97` with `pixel_size = 1/2` warns and that
axis bound rounds outward to `1.0`. -/
theorem coverage_approx_warning_shape :
    (∀ (region : List (ℝ × ℝ)) (ps : ℝ), ps ≠ 0 →
      (coverage_warns region ps ↔ ∃ p ∈ region,
        (¬∃ k : ℤ, p.1 = (k : ℝ) * ps) ∨ (¬∃ k : ℤ, p.2 = (k : ℝ) * ps))) ∧
    (∀ (region : List (ℝ × ℝ)) (ps : ℝ) (shape : List ℤ),
      coverage_approx_front region ps = .ok shape →
      shape = region.map (fun p => ⌈p.2 / ps⌉ - ⌊p.1 / ps⌋)) ∧
    (∀ (region : List (ℝ × ℝ)) (ps : ℝ), 0 < ps → ∀ p ∈ region,
      ((⌊p.1 / ps⌋ : ℤ) : ℝ) * ps ≤ p.1 ∧ p.2 ≤ ((⌈p.2 / ps⌉ : ℤ) : ℝ) * ps) ∧
    (¬ coverage_warns [(0, 1), (0, 1), (0, 1)] (1 / 2) ∧
      coverage_approx_front [(0, 1), (0, 1), (0, 1)] (1 / 2) = .ok [2, 2, 2]) ∧
    (coverage_warns [(0, 1), (0, 1), (0, 0.97)] (1 / 2) ∧
      coverage_approx_front [(0, 1), (0, 1), (0, 0.97)] (1 / 2) = .ok [2, 2, 2] ∧
      ((⌈(0.97 : ℝ) / (1 / 2)⌉ : ℤ) : ℝ) * (1 / 2) = 1) := by
  have hpymod0 : pymod 0 (1 / 2) = 0 := by
    unfold pymod
    norm_num
  have hpymod1 : pymod 1 (1 / 2) = 0 := by
    unfold pymod
    norm_num
  have hfloor97 : (⌊(0.97 : ℝ) / (1 / 2)⌋ : ℤ) = 1 := by
    norm_num [Int.floor_eq_iff]
  have hceil97 : (⌈(0.97 : ℝ) / (1 / 2)⌉ : ℤ) = 2 := by
    norm_num [Int.ceil_eq_iff]
  refine ⟨?_, ?_, ?_, ⟨?_, ?_⟩, ?_, ?_, ?_⟩
  · intro region ps hps
    unfold coverage_warns
    simp only [ne_eq, pymod_eq_zero_iff hps]
  · intro region ps shape h
    unfold coverage_approx_front at h
    split_ifs at h
    cases h
    rfl
  · intro region ps hps p _
    constructor
    · calc ((⌊p.1 / ps⌋ : ℤ) : ℝ) * ps ≤ (p.1 / ps) * ps := by
            apply mul_le_mul_of_nonneg_right (Int.floor_le _) (le_of_lt hps)
      _ = p.1 := by field_simp
    · calc p.2 = (p.2 / ps) * ps := by field_simp
      _ ≤ ((⌈p.2 / ps⌉ : ℤ) : ℝ) * ps := by
            apply mul_le_mul_of_nonneg_right (Int.le_ceil _) (le_of_lt hps)
  · rintro ⟨p, hp, hne⟩
    simp only [List.mem_cons, List.not_mem_nil, or_false] at hp
    rcases hp with rfl | rfl | rfl <;>
      rcases hne with hne | hne <;>
      first
        | exact hne hpymod0
        | exact hne hpymod1
  · unfold coverage_approx_front
    rw [if_pos (by norm_num)]
    norm_num
  · exact ⟨(0, 0.97), by simp, Or.inr (by unfold pymod; rw [hfloor97]; norm_num)⟩
  · unfold coverage_approx_front
    rw [if_pos (by norm_num)]
    simp only [List.map_cons, List.map_nil]
    rw [hceil97]
    norm_num
  · rw [hceil97]
    norm_num

theorem coverage_approx_warning_shape_witness :
    ((1 : ℝ) / 2 ≠ 0 ∧
      (coverage_warns [((0 : ℝ), (1 : ℝ))] (1 / 2) ↔ ∃ p ∈ [((0 : ℝ), (1 : ℝ))],
        (¬∃ k : ℤ, p.1 = (k : ℝ) * (1 / 2)) ∨ (¬∃ k : ℤ, p.2 = (k : ℝ) * (1 / 2)))) ∧
    (coverage_approx_front [((0 : ℝ), (1 : ℝ))] (1 / 2) = .ok [2] ∧
      [(2 : ℤ)] = [((0 : ℝ), (1 : ℝ))].map (fun p => ⌈p.2 / (1 / 2)⌉ - ⌊p.1 / (1 / 2)⌋)) ∧
    ((0 : ℝ) < 1 / 2 ∧ ∀ p ∈ [((0 : ℝ), (1 : ℝ))],
      ((⌊p.1 / (1 / 2)⌋ : ℤ) : ℝ) * (1 / 2) ≤ p.1 ∧
        p.2 ≤ ((⌈p.2 / (1 / 2)⌉ : ℤ) : ℝ) * (1 / 2)) := by
  have hfront : coverage_approx_front [((0 : ℝ), (1 : ℝ))] (1 / 2) = .ok [2] := by
    unfold coverage_approx_front
    rw [if_pos (by norm_num)]
    norm_num
  exact ⟨⟨by norm_num, coverage_approx_warning_shape.1 _ _ (by norm_num)⟩,
    ⟨hfront, coverage_approx_warning_shape.2.1 _ _ _ hfront⟩,
    by norm_num, coverage_approx_warning_shape.2.2.1 _ _ (by norm_num)⟩

theorem procedure_line_ok {trajectory : ℝ → THV} {offset : THV} {weight : ℝ}
    {tmin tmax dx dt : ℝ} {fuel : ℕ} {out : DTOutput}
    (h : discrete_trajectory (fun t => (trajectory t).add offset) tmin tmax dx dt fuel =
      .ok out) :
    procedure_line trajectory offset weight tmin tmax dx dt fuel =
      .ok (List.zipWith (fun p d => (p, d * weight)) out.position out.dwell) := by
  unfold procedure_line
  rw [h]

theorem procedure_line_ok_inv {trajectory : ℝ → THV} {offset : THV} {weight : ℝ}
    {tmin tmax dx dt : ℝ} {fuel : ℕ} {block : List (THV × ℝ)}
    (h : procedure_line trajectory offset weight tmin tmax dx dt fuel = .ok block) :
    ∃ out, discrete_trajectory (fun t => (trajectory t).add offset) tmin tmax dx dt fuel =
        .ok out ∧
      block = List.zipWith (fun p d => (p, d * weight)) out.position out.dwell := by
  unfold procedure_line at h
  cases hdt : discrete_trajectory (fun t => (trajectory t).add offset) tmin tmax dx dt fuel with
  | ok out =>
    rw [hdt] at h
    cases h
    exact ⟨out, rfl, rfl⟩
  | err =>
    rw [hdt] at h
    cases h
  | fuelOut =>
    rw [hdt] at h
    cases h

theorem procedure_lines_ok_inv {trajectory : ℝ → THV} {tmin tmax dx dt : ℝ} {fuel : ℕ} :
    ∀ (lines : List (THV × ℝ)) (blocks : List (List (THV × ℝ))),
      procedure_lines trajectory tmin tmax dx dt fuel lines = .ok blocks →
      blocks.length = lines.length ∧
      ∀ i < lines.length, ∃ out,
        discrete_trajectory
            (fun t => (trajectory t).add (lines.getD i (THV.mk 0 0 0, 0)).1)
            tmin tmax dx dt fuel = .ok out ∧
        blocks.getD i [] =
          List.zipWith (fun p d => (p, d * (lines.getD i (THV.mk 0 0 0, 0)).2))
            out.position out.dwell := by
  intro lines
  induction lines with
  | nil =>
    intro blocks h
    cases h
    exact ⟨rfl, fun i hi => absurd hi (by simp)⟩
  | cons pr rest ih =>
    intro blocks h
    rcases pr with ⟨offset, weight⟩
    unfold procedure_lines at h
    cases hpl : procedure_line trajectory offset weight tmin tmax dx dt fuel with
    | error e =>
      rw [hpl] at h
      cases h
    | ok block =>
      rw [hpl] at h
      cases hrest : procedure_lines trajectory tmin tmax dx dt fuel rest with
      | error e =>
        rw [hrest] at h
        cases h
      | ok blocks' =>
        rw [hrest] at h
        cases h
        obtain ⟨hlen, hall⟩ := ih blocks' hrest
        obtain ⟨out, hout, hblock⟩ := procedure_line_ok_inv hpl
        refine ⟨by simp [hlen], ?_⟩
        intro i hi
        cases i with
        | zero =>
          exact ⟨out, hout, hblock⟩
        | succ i =>
          simp only [List.getD_cons_succ]
          exact hall i (by simpa using hi)

/-- C5: whenever `procedure` succeeds, it produced one block per subline of
the decomposition; the `i`-th block is exactly the result of running
`discrete_trajectory` on the trajectory offset by the `i`-th subline's
offset, with `dx` equal to the derived `line_width` and the caller's `dt`,
each ray paired with scalar weight `dwell * subline weight`; within a block
the rays are in strictly time-ascending order of their sample times. -/
theorem procedure_blocks_spec (density_profile : ℝ → ℝ → ℝ) (width aspect : ℝ)
    (trajectory : ℝ → THV) (pixel_size tmin tmax dt : ℝ) (fuel : ℕ)
    (blocks : List (List (THV × ℝ)))
    (h : procedure density_profile width aspect trajectory pixel_size tmin tmax dt fuel =
      .ok blocks) :
    ∃ lines, line_offsets density_profile width aspect pixel_size =
        .ok (line_width_of width pixel_size, lines) ∧
      blocks.length = lines.length ∧
      ∀ i < lines.length, ∃ out,
        discrete_trajectory
            (fun t => (trajectory t).add (lines.getD i (THV.mk 0 0 0, 0)).1)
            tmin tmax (line_width_of width pixel_size) dt fuel = .ok out ∧
        blocks.getD i [] =
          List.zipWith (fun p d => (p, d * (lines.getD i (THV.mk 0 0 0, 0)).2))
            out.position out.dwell ∧
        List.Chain' (· < ·) out.time ∧
        out.position.length = out.time.length := by
  unfold procedure at h
  by_cases hc : width < pixel_size / 16 ∨ width * aspect < pixel_size / 16
  · rw [show line_offsets density_profile width aspect pixel_size =
        .error "Why are you using such large pixels?" by
      unfold line_offsets; rw [if_pos hc]] at h
    cases h
  · rw [line_offsets_ok_eq hc] at h
    obtain ⟨hlen, hall⟩ := procedure_lines_ok_inv _ _ h
    refine ⟨lines_of density_profile width aspect pixel_size,
      line_offsets_ok_eq hc, hlen, ?_⟩
    intro i hi
    obtain ⟨out, hout, hblock⟩ := hall i hi
    obtain ⟨⟨-, hts, -, hplen⟩, -⟩ := discrete_trajectory_ok_props hout
    exact ⟨out, hout, hblock, hts, hplen⟩

theorem procedure_blocks_spec_witness :
    ∃ blocks, procedure (fun _ _ => 1) 2 (3 / 4) (fun _ => THV.mk 0 0 0) 16 0 2 1 3 =
        .ok blocks ∧
      ∃ lines, line_offsets (fun _ _ => 1) 2 (3 / 4) 16 =
          .ok (line_width_of 2 16, lines) ∧
        blocks.length = lines.length ∧
        ∀ i < lines.length, ∃ out,
          discrete_trajectory
              (fun t => ((fun _ : ℝ => THV.mk 0 0 0) t).add
                (lines.getD i (THV.mk 0 0 0, 0)).1)
              0 2 (line_width_of 2 16) 1 3 = .ok out ∧
          blocks.getD i [] =
            List.zipWith (fun p d => (p, d * (lines.getD i (THV.mk 0 0 0, 0)).2))
              out.position out.dwell ∧
          List.Chain' (· < ·) out.time ∧
          out.position.length = out.time.length := by
  obtain ⟨out1, hout1, -, -⟩ := @dtLoop_const ((THV.mk 0 0 0).add (THV.mk 0 (-(1 / 2)) (-(1 / 4)))) 2 1 16
    (by norm_num) 2 3 [] [] [] 0 (by norm_num) (by norm_num; rfl) (by norm_num)
  obtain ⟨out2, hout2, -, -⟩ := @dtLoop_const ((THV.mk 0 0 0).add (THV.mk 0 (1 / 2) (-(1 / 4)))) 2 1 16
    (by norm_num) 2 3 [] [] [] 0 (by norm_num) (by norm_num; rfl) (by norm_num)
  have h1 : discrete_trajectory
      (fun t => ((fun _ : ℝ => THV.mk 0 0 0) t).add (THV.mk 0 (-(1 / 2)) (-(1 / 4))))
      0 2 1 1 3 = .ok out1 := hout1
  have h2 : discrete_trajectory
      (fun t => ((fun _ : ℝ => THV.mk 0 0 0) t).add (THV.mk 0 (1 / 2) (-(1 / 4))))
      0 2 1 1 3 = .ok out2 := hout2
  have hrest : procedure_lines (fun _ : ℝ => THV.mk 0 0 0) 0 2 1 1 3
      [(THV.mk 0 (1 / 2) (-(1 / 4)), 1)] =
      .ok [List.zipWith (fun p d => (p, d * 1)) out2.position out2.dwell] := by
    unfold procedure_lines
    rw [procedure_line_ok h2]
    rfl
  have hall : procedure_lines (fun _ : ℝ => THV.mk 0 0 0) 0 2 1 1 3
      [(THV.mk 0 (-(1 / 2)) (-(1 / 4)), 1), (THV.mk 0 (1 / 2) (-(1 / 4)), 1)] =
      .ok [List.zipWith (fun p d => (p, d * 1)) out1.position out1.dwell,
        List.zipWith (fun p d => (p, d * 1)) out2.position out2.dwell] := by
    unfold procedure_lines
    rw [procedure_line_ok h1, hrest]
  have hproc : procedure (fun _ _ => 1) 2 (3 / 4) (fun _ => THV.mk 0 0 0) 16 0 2 1 3 =
      .ok [List.zipWith (fun p d => (p, d * 1)) out1.position out1.dwell,
        List.zipWith (fun p d => (p, d * 1)) out2.position out2.dwell] := by
    unfold procedure
    rw [line_offsets_ok_eq (by norm_num), line_width_of_2_16, lines_of_2_34_16]
    exact hall
  exact ⟨_, hproc,
    procedure_blocks_spec (fun _ _ => 1) 2 (3 / 4) (fun _ => THV.mk 0 0 0) 16 0 2 1 3 _
      hproc⟩
